import Mathlib

/-!
Verification of `deepvoice3_pytorch/modules.py`: a shallow embedding of the
module's layer constructors and forward computations, over exact real
arithmetic (floating point is idealised as `ℝ`), together with theorems
settling the specification's claims.

Conventions of the embedding:
  * a 3-D tensor of shape (B, C, T) is a record of its three sizes and a total
    valuation function `ℕ → ℕ → ℕ → ℝ`; entries outside the sizes are
    irrelevant and equality of tensors is stated entrywise within bounds;
  * `torch` / `numpy` primitives used by the source (slicing, `F.glu`,
    `F.sigmoid`, 1-D convolution, pointwise arithmetic) are modelled by
    corresponding definitions below, each mirroring the primitive's
    documented index arithmetic;
  * random weight initialisation is abstracted by quantifying theorems over
    arbitrary weight and bias valuations; the deterministic part of the
    initialisation (the `std` formula, zeroed biases, `std_mul` defaults) is
    kept in the layer records;
  * dropout is modelled in its deterministic evaluation mode
    (`training=False`), where `F.dropout` is the identity.
-/

/-! ### Python slice index arithmetic

`sliceIdx start step stop` is the list of indices selected by the Python/numpy
slice `start::step` on an axis of size `stop` (for positive `step`): the
length of the selection is `⌈(stop - start) / step⌉` and the `k`-th selected
index is `start + step * k`.  The source uses the column slices `0::2` and
`1::2` (`modules.py` lines 22-23 and 30-31). -/
def sliceIdx (start step stop : ℕ) : List ℕ :=
  (List.range ((stop - start + step - 1) / step)).map (fun k => start + step * k)

theorem mem_sliceIdx_even (D j : ℕ) : j ∈ sliceIdx 0 2 D ↔ j < D ∧ j % 2 = 0 := by
  simp only [sliceIdx, List.mem_map, List.mem_range]
  constructor
  · rintro ⟨k, hk, rfl⟩
    omega
  · rintro ⟨hj, hp⟩
    exact ⟨j / 2, by omega, by omega⟩

theorem mem_sliceIdx_odd (D j : ℕ) : j ∈ sliceIdx 1 2 D ↔ j < D ∧ j % 2 = 1 := by
  simp only [sliceIdx, List.mem_map, List.mem_range]
  constructor
  · rintro ⟨k, hk, rfl⟩
    omega
  · rintro ⟨hj, hp⟩
    exact ⟨(j - 1) / 2, by omega, by omega⟩

/-! ### Positional encoding table (`position_encoding_init`, lines 11-25) -/

/-- The comprehension of `modules.py` lines 16-18: row 0 is `np.zeros D`, and
row `pos ≥ 1`, column `i`, is `position_rate * pos / np.power 10000 (2*i/D)`
(Python 3 true division in the exponent). -/
noncomputable def rawTable (N D : ℕ) (position_rate : ℝ) : Fin N → Fin D → ℝ :=
  fun pos i =>
    if pos.val = 0 then 0
    else position_rate * (pos.val : ℝ) / Real.rpow 10000 (2 * (i.val : ℝ) / (D : ℝ))

/-- The slice assignment `enc[1:, 0::2] = sin(enc[1:, 0::2])` (lines 22 and 30):
rows from 1 on, columns selected by the slice `0::2`, are replaced by their
sine. -/
noncomputable def applySinEven {N D : ℕ} (M : Fin N → Fin D → ℝ) : Fin N → Fin D → ℝ :=
  fun pos i =>
    if 1 ≤ pos.val ∧ i.val ∈ sliceIdx 0 2 D then Real.sin (M pos i) else M pos i

/-- The slice assignment `enc[1:, 1::2] = cos(enc[1:, 1::2])` (lines 23 and 31). -/
noncomputable def applyCosOdd {N D : ℕ} (M : Fin N → Fin D → ℝ) : Fin N → Fin D → ℝ :=
  fun pos i =>
    if 1 ≤ pos.val ∧ i.val ∈ sliceIdx 1 2 D then Real.cos (M pos i) else M pos i

/-- `position_encoding_init` (lines 11-25): build the raw table, then, when
`sinusoidal` is set, overwrite the even columns of rows `≥ 1` by their sine and
afterwards the odd columns of rows `≥ 1` by their cosine. -/
noncomputable def position_encoding_init (n_position d_pos_vec : ℕ) (position_rate : ℝ)
    (sinusoidal : Bool) : Fin n_position → Fin d_pos_vec → ℝ :=
  if sinusoidal then
    applyCosOdd (applySinEven (rawTable n_position d_pos_vec position_rate))
  else
    rawTable n_position d_pos_vec position_rate

/-! ### Sinusoidal encoding layer (`sinusoidal_encode` and `SinusoidalEncoding`,
lines 28-53) -/

/-- `sinusoidal_encode x w` (lines 28-32): `y = w * x.clone()`, then the same
two slice assignments as in `position_encoding_init`. -/
noncomputable def sinusoidal_encode {N D : ℕ} (x : Fin N → Fin D → ℝ) (w : ℝ) :
    Fin N → Fin D → ℝ :=
  applyCosOdd (applySinEven (fun pos i => w * x pos i))

/-- The weight stored by `SinusoidalEncoding.__init__` (lines 40-42):
`position_encoding_init num_embeddings embedding_dim` with `position_rate=1.0`
and `sinusoidal=False`. -/
noncomputable def SinusoidalEncoding_weight (num_embeddings embedding_dim : ℕ) :
    Fin num_embeddings → Fin embedding_dim → ℝ :=
  position_encoding_init num_embeddings embedding_dim 1 false

/-- The table `SinusoidalEncoding.forward` looks indices up in (line 45):
`sinusoidal_encode self.weight w`. -/
noncomputable def SinusoidalEncoding_table (num_embeddings embedding_dim : ℕ) (w : ℝ) :
    Fin num_embeddings → Fin embedding_dim → ℝ :=
  sinusoidal_encode (SinusoidalEncoding_weight num_embeddings embedding_dim) w

/-! ### Claims C3, C2, C9 -/

/-- C3: the table returned by `position_encoding_init` has row 0 equal to the
zero vector; for every row `pos ≥ 1` and column `i` the non-sinusoidal entry
equals `rate * pos / 10000 ^ (2*i/D)`; and with the sinusoidal flag set, even
columns of rows `≥ 1` hold the sine of that quantity and odd columns its
cosine. -/
theorem position_encoding_init_entries (N D : ℕ) (rate : ℝ) (sinusoidal : Bool)
    (pos : Fin N) (i : Fin D) :
    (pos.val = 0 → position_encoding_init N D rate sinusoidal pos i = 0) ∧
    (1 ≤ pos.val → position_encoding_init N D rate false pos i
        = rate * (pos.val : ℝ) / Real.rpow 10000 (2 * (i.val : ℝ) / (D : ℝ))) ∧
    (1 ≤ pos.val → i.val % 2 = 0 → position_encoding_init N D rate true pos i
        = Real.sin (rate * (pos.val : ℝ) / Real.rpow 10000 (2 * (i.val : ℝ) / (D : ℝ)))) ∧
    (1 ≤ pos.val → i.val % 2 = 1 → position_encoding_init N D rate true pos i
        = Real.cos (rate * (pos.val : ℝ) / Real.rpow 10000 (2 * (i.val : ℝ) / (D : ℝ)))) := by
  have hmem0 : i.val ∈ sliceIdx 0 2 D ↔ i.val % 2 = 0 := by
    rw [mem_sliceIdx_even]; exact ⟨fun h => h.2, fun h => ⟨i.isLt, h⟩⟩
  have hmem1 : i.val ∈ sliceIdx 1 2 D ↔ i.val % 2 = 1 := by
    rw [mem_sliceIdx_odd]; exact ⟨fun h => h.2, fun h => ⟨i.isLt, h⟩⟩
  refine ⟨fun h0 => ?_, fun h1 => ?_, fun h1 he => ?_, fun h1 ho => ?_⟩
  · cases sinusoidal with
    | false => simp [position_encoding_init, rawTable, h0]
    | true =>
        simp only [position_encoding_init, if_true, applyCosOdd, applySinEven]
        rw [if_neg (by omega), if_neg (by omega)]
        simp [rawTable, h0]
  · simp only [position_encoding_init, if_neg Bool.false_ne_true, Bool.false_eq_true,
      if_false, rawTable]
    rw [if_neg (by omega)]
  · simp only [position_encoding_init, if_true, applyCosOdd, applySinEven]
    rw [if_neg (by rw [hmem1]; omega), if_pos ⟨h1, hmem0.mpr he⟩, rawTable]
    rw [if_neg (by omega)]
  · simp only [position_encoding_init, if_true, applyCosOdd, applySinEven]
    rw [if_pos ⟨h1, hmem1.mpr ho⟩, if_neg (by rw [hmem0]; omega), rawTable]
    rw [if_neg (by omega)]

/-- Witness for C3 at `N = 3`, `D = 2`, `rate = 1`, `pos = 1`, `i = 0`. -/
theorem position_encoding_init_entries_witness :
    (1 ≤ (1 : Fin 3).val) ∧
    position_encoding_init 3 2 1 true 1 0
      = Real.sin (1 * ((1 : Fin 3).val : ℝ)
          / Real.rpow 10000 (2 * (((0 : Fin 2)).val : ℝ) / (2 : ℝ))) :=
  ⟨by decide, (position_encoding_init_entries 3 2 1 true 1 0).2.2.1 (by decide) (by decide)⟩

/-- C2: applying `sinusoidal_encode` with scale `w = 1` to the non-sinusoidal
base table stored by `SinusoidalEncoding.__init__` yields exactly the
sinusoidal table of `position_encoding_init`. -/
theorem sinusoidal_encode_roundtrip (N D : ℕ) :
    SinusoidalEncoding_table N D 1 = position_encoding_init N D 1 true := by
  have hbase : (fun pos i => (1 : ℝ) * SinusoidalEncoding_weight N D pos i)
      = rawTable N D 1 := by
    funext pos i
    rw [one_mul]
    simp [SinusoidalEncoding_weight, position_encoding_init]
  simp only [SinusoidalEncoding_table, sinusoidal_encode, hbase, position_encoding_init,
    if_true]

/-- C9: for every dimensionality `D`, even or odd, every column index touched
by the raw-formula comprehension (`range D`) and by the two sinusoidal slice
assignments (`0::2` and `1::2`) lies strictly below `D`. -/
theorem position_encoding_column_indices_safe (D j : ℕ) :
    (j ∈ List.range D → j < D) ∧
    (j ∈ sliceIdx 0 2 D → j < D) ∧
    (j ∈ sliceIdx 1 2 D → j < D) := by
  refine ⟨fun h => List.mem_range.mp h, fun h => ?_, fun h => ?_⟩
  · exact ((mem_sliceIdx_even D j).mp h).1
  · exact ((mem_sliceIdx_odd D j).mp h).1

/-- Witness for C9 at the odd dimensionality `D = 5`: the last even-slice
column index `4` is in range. -/
theorem position_encoding_column_indices_safe_witness :
    4 ∈ sliceIdx 0 2 5 ∧ 3 ∈ sliceIdx 1 2 5 ∧ 4 < 5 ∧ 3 < 5 :=
  ⟨by decide, by decide,
    (position_encoding_column_indices_safe 5 4).2.1 (by decide),
    (position_encoding_column_indices_safe 5 3).2.2 (by decide)⟩

/-! ### Tensors and torch primitives -/

/-- A (B, C, T)-shaped real tensor: its three sizes plus a total valuation;
entries outside the sizes are irrelevant. -/
structure Tensor3 where
  batch : ℕ
  channels : ℕ
  time : ℕ
  val : ℕ → ℕ → ℕ → ℝ

/-- Entrywise equality of two tensors: equal sizes and equal entries within
those sizes. -/
def Tensor3.eqOn (x y : Tensor3) : Prop :=
  x.batch = y.batch ∧ x.channels = y.channels ∧ x.time = y.time ∧
  ∀ b c t, b < x.batch → c < x.channels → t < x.time → x.val b c t = y.val b c t

/-- `F.sigmoid`: the logistic function. -/
noncomputable def sigmoid (z : ℝ) : ℝ := 1 / (1 + Real.exp (-z))

/-- `F.dropout x p training` in deterministic evaluation mode
(`training=False`), where it is the identity; training-mode dropout is
randomised and outside this deterministic embedding. -/
def F_dropout (p : ℝ) (x : Tensor3) : Tensor3 := x

/-- Entry of the time-axis zero padding of `x` by `p` on both sides, as seen by
the convolution: position `u` of the padded signal. -/
noncomputable def padVal (x : Tensor3) (p : ℕ) (b c u : ℕ) : ℝ :=
  if u < p then 0 else if u - p < x.time then x.val b c (u - p) else 0

/-- Output length of `torch.nn.Conv1d` with stride 1:
`T + 2*padding - dilation*(kernel_size - 1)`. -/
def convOutTime (T p d K : ℕ) : ℕ := T + 2 * p - d * (K - 1)

/-- The hyperparameters of a weight-normalised `Conv1d` layer built by the
`Conv1d` factory (lines 62-68).  The weight and bias values are randomly
initialised and then trained, so theorems quantify over them separately; the
record keeps the deterministic configuration, including the `std_mul`
initialisation multiplier passed to the factory. -/
structure Conv1dLayer where
  in_channels : ℕ
  out_channels : ℕ
  kernel_size : ℕ
  padding : ℕ
  dilation : ℕ
  dropout : ℝ
  std_mul : ℝ

/-- The `Conv1d` factory (lines 62-68): records the configuration the layer is
built with.  Its Python default for `std_mul` is `conv1d_default_std_mul`. -/
def Conv1d (in_channels out_channels kernel_size : ℕ) (dropout std_mul : ℝ)
    (padding dilation : ℕ) : Conv1dLayer :=
  ⟨in_channels, out_channels, kernel_size, padding, dilation, dropout, std_mul⟩

/-- The default of the `std_mul` keyword of the plain `Conv1d` factory
(line 62: `std_mul=4.0`). -/
def conv1d_default_std_mul : ℝ := 4

/-- The standard deviation of the factory's normal weight initialisation
(lines 65-66): `sqrt (std_mul * (1 - dropout) / (kernel_size * in_channels))`. -/
noncomputable def convInitStd (m : Conv1dLayer) : ℝ :=
  Real.sqrt ((m.std_mul * (1 - m.dropout)) / ((m.kernel_size : ℝ) * (m.in_channels : ℝ)))

/-- Full-sequence forward of the (weight-normalised) `Conv1d` layer with
effective weight `W` (out-channel, in-channel, tap) and bias `bias`, stride 1,
zero padding `m.padding` on both time ends, dilation `m.dilation`. -/
noncomputable def convForward (m : Conv1dLayer) (W : ℕ → ℕ → ℕ → ℝ) (bias : ℕ → ℝ)
    (x : Tensor3) : Tensor3 where
  batch := x.batch
  channels := m.out_channels
  time := convOutTime x.time m.padding m.dilation m.kernel_size
  val := fun b c t => bias c + ∑ ci in Finset.range m.in_channels,
      ∑ k in Finset.range m.kernel_size,
        W c ci k * padVal x m.padding b ci (t + m.dilation * k)

/-- `x[:, :, :n]`: keep the first `n` time steps. -/
def Tensor3.timeSlice (x : Tensor3) (n : ℕ) : Tensor3 :=
  { x with time := min n x.time }

/-- `a, b = x.split(x.size(1) // 2, dim=1)` for a channel count split in two
halves: the first component keeps channels `[0, C/2)`, the second the
remaining channels, shifted down by `C/2`. -/
def Tensor3.splitHalf (x : Tensor3) : Tensor3 × Tensor3 :=
  (⟨x.batch, x.channels / 2, x.time, x.val⟩,
   ⟨x.batch, x.channels - x.channels / 2, x.time,
     fun b c t => x.val b (x.channels / 2 + c) t⟩)

/-- `F.glu(x, dim=1)`: halve the channel axis; the first half is multiplied by
the sigmoid of the second. -/
noncomputable def F_glu (x : Tensor3) : Tensor3 where
  batch := x.batch
  channels := x.channels / 2
  time := x.time
  val := fun b c t => x.val b c t * sigmoid (x.val b (x.channels / 2 + c) t)

/-- Pointwise tensor addition (sizes taken from the left operand; torch raises
on genuinely mismatched shapes, which the theorems avoid by construction). -/
def Tensor3.add (x y : Tensor3) : Tensor3 :=
  ⟨x.batch, x.channels, x.time, fun b c t => x.val b c t + y.val b c t⟩

/-- Pointwise tensor multiplication (sizes from the left operand). -/
def Tensor3.mul (x y : Tensor3) : Tensor3 :=
  ⟨x.batch, x.channels, x.time, fun b c t => x.val b c t * y.val b c t⟩

/-- Scalar minus tensor, `r - x`, pointwise. -/
def Tensor3.rsub (r : ℝ) (x : Tensor3) : Tensor3 :=
  ⟨x.batch, x.channels, x.time, fun b c t => r - x.val b c t⟩

/-- Tensor times scalar, pointwise. -/
def Tensor3.scale (r : ℝ) (x : Tensor3) : Tensor3 :=
  ⟨x.batch, x.channels, x.time, fun b c t => r * x.val b c t⟩

/-- Pointwise application of a real function. -/
def Tensor3.map (f : ℝ → ℝ) (x : Tensor3) : Tensor3 :=
  ⟨x.batch, x.channels, x.time, fun b c t => f (x.val b c t)⟩

/-! ### The factories with a dilation assertion (lines 80-100) -/

/-- The layer record produced by the `LinearizedConv1d` and `ConvTBC`
factories once their assertion has passed. -/
structure FactoryLayer where
  in_channels : ℕ
  out_channels : ℕ
  kernel_size : ℕ
  std_mul : ℝ
  dropout : ℝ

/-- Whether a fallible construction succeeded. -/
def exceptOk {ε α : Type} : Except ε α → Bool
  | Except.ok _ => true
  | Except.error _ => false

/-- `LinearizedConv1d` (lines 80-88): `assert dilation[0] == 1` runs before the
`LinearizedConvolution` layer is constructed, so a failing assertion yields an
error and no layer. -/
def LinearizedConv1d (in_channels out_channels kernel_size dilation : ℕ)
    (std_mul dropout : ℝ) : Except String FactoryLayer :=
  if dilation = 1 then
    Except.ok ⟨in_channels, out_channels, kernel_size, std_mul, dropout⟩
  else
    Except.error "AssertionError: dilation[0] == 1"

/-- `ConvTBC` (lines 91-100): same `assert dilation[0] == 1` before the
`fairseq` `ConvTBC` layer is constructed. -/
def ConvTBC (in_channels out_channels kernel_size dilation : ℕ)
    (std_mul dropout : ℝ) : Except String FactoryLayer :=
  if dilation = 1 then
    Except.ok ⟨in_channels, out_channels, kernel_size, std_mul, dropout⟩
  else
    Except.error "AssertionError: dilation[0] == 1"

/-! ### The Highway convolution block (lines 103-162) -/

/-- The state of a `HighwayConv1d` block: flags plus the owned inner
convolution producing `2 * out_channels` channels. -/
structure HighwayConv1d where
  causal : Bool
  dropout : ℝ
  glu : Bool
  conv : Conv1dLayer

/-- `HighwayConv1d.__init__` (lines 107-125): resolve the `std_mul` default
(`4.0` if `glu` else `1.0` when the caller passes `None`), resolve the padding
default (`(kernel_size - 1) * dilation` if causal, else
`(kernel_size - 1) // 2 * dilation`), and build the inner convolution with
`2 * out_channels` output channels. -/
def mkHighwayConv1d (in_channels out_channels kernel_size : ℕ) (padding : Option ℕ)
    (dilation : ℕ) (causal : Bool) (dropout : ℝ) (std_mul : Option ℝ) (glu : Bool) :
    HighwayConv1d :=
  { causal := causal
    dropout := dropout
    glu := glu
    conv := Conv1d in_channels (2 * out_channels) kernel_size dropout
      (std_mul.getD (if glu then 4 else 1))
      (padding.getD (if causal then (kernel_size - 1) * dilation
                     else (kernel_size - 1) / 2 * dilation))
      dilation }

/-- Lines 142-151 of `HighwayConv1d._forward` in batch mode: dropout, the
full-sequence convolution, and—when causal—trimming of the trailing future
time steps down to the input's length. -/
noncomputable def highwayConvOut (h : HighwayConv1d) (W : ℕ → ℕ → ℕ → ℝ)
    (bias : ℕ → ℝ) (x : Tensor3) : Tensor3 :=
  if h.causal then
    (convForward h.conv W bias (F_dropout h.dropout x)).timeSlice x.time
  else
    convForward h.conv W bias (F_dropout h.dropout x)

/-- `HighwayConv1d.forward` = `_forward(x, False)` (lines 127-128, 133-159):
in `glu` mode, `(F.glu(conv_out, dim=1) + residual) * sqrt 0.5`; otherwise
split the conv output in channel halves `a, b` and return
`sigmoid b * a + (1 - sigmoid b) * residual`. -/
noncomputable def HighwayConv1d.forward (h : HighwayConv1d) (W : ℕ → ℕ → ℕ → ℝ)
    (bias : ℕ → ℝ) (x : Tensor3) : Tensor3 :=
  if h.glu then
    Tensor3.scale (Real.sqrt 0.5) (Tensor3.add (F_glu (highwayConvOut h W bias x)) x)
  else
    Tensor3.add
      (Tensor3.mul (Tensor3.map sigmoid (highwayConvOut h W bias x).splitHalf.2)
        (highwayConvOut h W bias x).splitHalf.1)
      (Tensor3.mul (Tensor3.rsub 1 (Tensor3.map sigmoid
        (highwayConvOut h W bias x).splitHalf.2)) x)

/-! ### Helper lemmas about the Highway block -/

theorem highwayConvOut_channels (h : HighwayConv1d) (W : ℕ → ℕ → ℕ → ℝ) (bias : ℕ → ℝ)
    (x : Tensor3) : (highwayConvOut h W bias x).channels = h.conv.out_channels := by
  unfold highwayConvOut
  split <;> rfl

theorem highwayConvOut_val (h : HighwayConv1d) (W : ℕ → ℕ → ℕ → ℝ) (bias : ℕ → ℝ)
    (x : Tensor3) : (highwayConvOut h W bias x).val = (convForward h.conv W bias x).val := by
  unfold highwayConvOut F_dropout
  split <;> rfl

theorem causal_default_trim_time (T K d : ℕ) :
    min T (convOutTime T ((K - 1) * d) d K) = T := by
  unfold convOutTime
  rw [Nat.mul_comm d (K - 1)]
  generalize (K - 1) * d = m
  omega

/-! ### Claims C4, C5, C6 -/

/-- C4: in highway (non-GLU) mode, on a batch input whose channel count equals
`out_channels`, every output entry equals
`sigmoid b * a + (1 - sigmoid b) * x`, where `a` and `b` are the first and
second channel halves of the (trimmed) convolution output `highwayConvOut`,
with no `sqrt 0.5` scaling. -/
theorem highway_batch_nonglu (ic oc K : ℕ) (padding : Option ℕ) (d : ℕ) (causal : Bool)
    (dropout : ℝ) (sm : Option ℝ) (W : ℕ → ℕ → ℕ → ℝ) (bias : ℕ → ℝ) (x : Tensor3)
    (hx : x.channels = oc) (b c t : ℕ) (hb : b < x.batch) (hc : c < oc)
    (ht : t < (highwayConvOut (mkHighwayConv1d ic oc K padding d causal dropout sm false)
        W bias x).time) :
    ((mkHighwayConv1d ic oc K padding d causal dropout sm false).forward W bias x).val b c t
      = sigmoid ((highwayConvOut (mkHighwayConv1d ic oc K padding d causal dropout sm false)
            W bias x).val b (oc + c) t)
          * (highwayConvOut (mkHighwayConv1d ic oc K padding d causal dropout sm false)
            W bias x).val b c t
        + (1 - sigmoid ((highwayConvOut (mkHighwayConv1d ic oc K padding d causal dropout
            sm false) W bias x).val b (oc + c) t)) * x.val b c t := by
  have hch : (highwayConvOut (mkHighwayConv1d ic oc K padding d causal dropout sm false)
      W bias x).channels = 2 * oc := by
    rw [highwayConvOut_channels]
    simp [mkHighwayConv1d, Conv1d]
  have h2 : 2 * oc / 2 = oc := by omega
  simp only [HighwayConv1d.forward]
  rw [if_neg (by simp [mkHighwayConv1d])]
  simp only [Tensor3.add, Tensor3.mul, Tensor3.map, Tensor3.rsub, Tensor3.splitHalf]
  rw [hch, h2]

/-- Witness for C4 at a concrete non-causal kernel-1 block with zero weights
and a singleton input tensor. -/
theorem highway_batch_nonglu_witness :
    (Tensor3.mk 1 1 1 (fun _ _ _ => 0)).channels = 1 ∧
    ((mkHighwayConv1d 1 1 1 none 1 false 0 none false).forward (fun _ _ _ => 0)
        (fun _ => 0) (Tensor3.mk 1 1 1 (fun _ _ _ => 0))).val 0 0 0
      = sigmoid ((highwayConvOut (mkHighwayConv1d 1 1 1 none 1 false 0 none false)
            (fun _ _ _ => 0) (fun _ => 0) (Tensor3.mk 1 1 1 (fun _ _ _ => 0))).val 0 (1 + 0) 0)
          * (highwayConvOut (mkHighwayConv1d 1 1 1 none 1 false 0 none false)
            (fun _ _ _ => 0) (fun _ => 0) (Tensor3.mk 1 1 1 (fun _ _ _ => 0))).val 0 0 0
        + (1 - sigmoid ((highwayConvOut (mkHighwayConv1d 1 1 1 none 1 false 0 none false)
            (fun _ _ _ => 0) (fun _ => 0) (Tensor3.mk 1 1 1 (fun _ _ _ => 0))).val 0 (1 + 0) 0))
          * (Tensor3.mk 1 1 1 (fun _ _ _ => 0)).val 0 0 0 :=
  ⟨rfl, highway_batch_nonglu 1 1 1 none 1 false 0 none (fun _ _ _ => 0) (fun _ => 0)
    (Tensor3.mk 1 1 1 (fun _ _ _ => 0)) rfl 0 0 0 (by norm_num) (by norm_num)
    (by norm_num [highwayConvOut, mkHighwayConv1d, Conv1d, convForward, convOutTime,
      F_dropout])⟩

/-- C5: in gated-linear-unit mode, every batch-mode output entry equals
`(F.glu(conv_out, dim=1) + x) * sqrt 0.5`: the GLU-gated (trimmed) convolution
output plus the residual, scaled by `sqrt 0.5`. -/
theorem highway_batch_glu (ic oc K : ℕ) (padding : Option ℕ) (d : ℕ) (causal : Bool)
    (dropout : ℝ) (sm : Option ℝ) (W : ℕ → ℕ → ℕ → ℝ) (bias : ℕ → ℝ) (x : Tensor3)
    (hx : x.channels = oc) (b c t : ℕ) (hb : b < x.batch) (hc : c < oc)
    (ht : t < (highwayConvOut (mkHighwayConv1d ic oc K padding d causal dropout sm true)
        W bias x).time) :
    ((mkHighwayConv1d ic oc K padding d causal dropout sm true).forward W bias x).val b c t
      = ((highwayConvOut (mkHighwayConv1d ic oc K padding d causal dropout sm true)
            W bias x).val b c t
          * sigmoid ((highwayConvOut (mkHighwayConv1d ic oc K padding d causal dropout
              sm true) W bias x).val b (oc + c) t)
         + x.val b c t) * Real.sqrt 0.5 := by
  have hch : (highwayConvOut (mkHighwayConv1d ic oc K padding d causal dropout sm true)
      W bias x).channels = 2 * oc := by
    rw [highwayConvOut_channels]
    simp [mkHighwayConv1d, Conv1d]
  have h2 : 2 * oc / 2 = oc := by omega
  simp only [HighwayConv1d.forward]
  rw [if_pos (by simp [mkHighwayConv1d])]
  simp only [Tensor3.scale, Tensor3.add, F_glu]
  rw [hch, h2, mul_comm]

/-- Witness for C5 at a concrete non-causal kernel-1 block with zero weights
and a singleton input tensor. -/
theorem highway_batch_glu_witness :
    (Tensor3.mk 1 1 1 (fun _ _ _ => 0)).channels = 1 ∧
    ((mkHighwayConv1d 1 1 1 none 1 false 0 none true).forward (fun _ _ _ => 0)
        (fun _ => 0) (Tensor3.mk 1 1 1 (fun _ _ _ => 0))).val 0 0 0
      = ((highwayConvOut (mkHighwayConv1d 1 1 1 none 1 false 0 none true)
            (fun _ _ _ => 0) (fun _ => 0) (Tensor3.mk 1 1 1 (fun _ _ _ => 0))).val 0 0 0
          * sigmoid ((highwayConvOut (mkHighwayConv1d 1 1 1 none 1 false 0 none true)
              (fun _ _ _ => 0) (fun _ => 0) (Tensor3.mk 1 1 1 (fun _ _ _ => 0))).val 0 (1 + 0) 0)
         + (Tensor3.mk 1 1 1 (fun _ _ _ => 0)).val 0 0 0) * Real.sqrt 0.5 :=
  ⟨rfl, highway_batch_glu 1 1 1 none 1 false 0 none (fun _ _ _ => 0) (fun _ => 0)
    (Tensor3.mk 1 1 1 (fun _ _ _ => 0)) rfl 0 0 0 (by norm_num) (by norm_num)
    (by norm_num [highwayConvOut, mkHighwayConv1d, Conv1d, convForward, convOutTime,
      F_dropout])⟩

/-- C6: a causal Highway block with default padding preserves the time length
of a batch input, for every kernel size and dilation. -/
theorem highway_causal_time (ic oc K d : ℕ) (dropout : ℝ) (sm : Option ℝ) (glu : Bool)
    (W : ℕ → ℕ → ℕ → ℝ) (bias : ℕ → ℝ) (x : Tensor3) :
    ((mkHighwayConv1d ic oc K none d true dropout sm glu).forward W bias x).time
      = x.time := by
  have hpad : (mkHighwayConv1d ic oc K none d true dropout sm glu).conv.padding
      = (K - 1) * d := by
    simp [mkHighwayConv1d, Conv1d]
  have htime : (highwayConvOut (mkHighwayConv1d ic oc K none d true dropout sm glu)
      W bias x).time = x.time := by
    unfold highwayConvOut
    rw [if_pos (by simp [mkHighwayConv1d])]
    simp only [Tensor3.timeSlice, F_dropout, convForward, hpad]
    have := causal_default_trim_time x.time K d
    simp only [mkHighwayConv1d, Conv1d] at *
    exact this
  unfold HighwayConv1d.forward
  split
  · simpa [Tensor3.scale, Tensor3.add, F_glu] using htime
  · simpa [Tensor3.add, Tensor3.mul, Tensor3.map, Tensor3.rsub, Tensor3.splitHalf]
      using htime

/-! ### Claims C8 and C10 -/

/-- C8: the `LinearizedConv1d` and `ConvTBC` factories succeed exactly when
the requested dilation is 1; any other dilation fails the assertion before a
layer is built. -/
theorem factory_dilation_check (ic oc k dil : ℕ) (sm dr : ℝ) :
    (exceptOk (LinearizedConv1d ic oc k dil sm dr) = true ↔ dil = 1) ∧
    (exceptOk (ConvTBC ic oc k dil sm dr) = true ↔ dil = 1) := by
  unfold LinearizedConv1d ConvTBC
  by_cases h : dil = 1 <;> simp [h, exceptOk]

/-- Witness for C8: both factories succeed at dilation 1. -/
theorem factory_dilation_check_witness :
    exceptOk (LinearizedConv1d 1 1 3 1 4 0) = true ∧
    exceptOk (ConvTBC 1 1 3 1 4 0) = true :=
  ⟨(factory_dilation_check 1 1 3 1 4 0).1.mpr rfl,
   (factory_dilation_check 1 1 3 1 4 0).2.mpr rfl⟩

/-- C10: a Highway block built with `std_mul = None` gives its inner
convolution the initialisation multiplier `4.0` in GLU mode and `1.0` in
sigmoid-highway mode, and the latter overrides the plain `Conv1d` factory's
own default of `4.0`. -/
theorem highway_std_mul_default (ic oc k : ℕ) (padding : Option ℕ) (d : ℕ)
    (causal : Bool) (dropout : ℝ) (glu : Bool) :
    ((mkHighwayConv1d ic oc k padding d causal dropout none glu).conv.std_mul
        = if glu then (4 : ℝ) else 1) ∧
    (glu = false →
      (mkHighwayConv1d ic oc k padding d causal dropout none glu).conv.std_mul
        ≠ conv1d_default_std_mul) := by
  cases glu <;>
    simp [mkHighwayConv1d, Conv1d, conv1d_default_std_mul] <;> norm_num

/-- Witness for C10 at a concrete non-GLU block. -/
theorem highway_std_mul_default_witness :
    ((mkHighwayConv1d 1 1 1 none 1 false 0 none false).conv.std_mul
        = if false then (4 : ℝ) else 1) ∧
    (mkHighwayConv1d 1 1 1 none 1 false 0 none false).conv.std_mul
        ≠ conv1d_default_std_mul :=
  ⟨(highway_std_mul_default 1 1 1 none 1 false 0 false).1,
   (highway_std_mul_default 1 1 1 none 1 false 0 false).2 rfl⟩

/-! ### The length-to-mask helper (`get_mask_from_lengths`, lines 165-174) -/

/-- A (batch, max_time)-shaped boolean tensor (byte values 0/1 are modelled as
`Bool`). -/
structure Mask2 where
  batch : ℕ
  time : ℕ
  val : ℕ → ℕ → Bool

/-- One iteration of the loop body `mask[idx][:l] = 1` (line 173): set row
`idx`, time indices below `l`, to 1. -/
def setRowOnes (m : ℕ → ℕ → Bool) (idx l : ℕ) : ℕ → ℕ → Bool :=
  fun b t => if b = idx ∧ t < l then true else m b t

/-- The whole `for idx, l in enumerate(memory_lengths)` loop (lines 172-173)
run from an initial mask valuation. -/
def maskLoop (pairs : List (ℕ × ℕ)) (m : ℕ → ℕ → Bool) : ℕ → ℕ → Bool :=
  pairs.foldl (fun acc p => setRowOnes acc p.1 p.2) m

/-- `get_mask_from_lengths memory memory_lengths` (lines 165-174): allocate a
zeroed byte mask shaped from `memory.size(0)` and `memory.size(1)`, run the
enumerate loop writing ones over the valid prefix of each row, and return the
negation.  `memory` enters only through its two leading sizes, which are
passed directly. -/
def get_mask_from_lengths (memory_size0 memory_size1 : ℕ) (memory_lengths : List ℕ) :
    Mask2 where
  batch := memory_size0
  time := memory_size1
  val := fun b t => ! maskLoop memory_lengths.enum (fun _ _ => false) b t

theorem maskLoop_true_iff (pairs : List (ℕ × ℕ)) (m : ℕ → ℕ → Bool) (b t : ℕ) :
    maskLoop pairs m b t = true ↔
      (m b t = true ∨ ∃ p ∈ pairs, b = p.1 ∧ t < p.2) := by
  induction pairs generalizing m with
  | nil => simp [maskLoop]
  | cons p ps ih =>
      simp only [maskLoop, List.foldl_cons] at *
      rw [ih]
      constructor
      · rintro (hm | hrest)
        · unfold setRowOnes at hm
          by_cases hc : b = p.1 ∧ t < p.2
          · exact Or.inr ⟨p, List.mem_cons_self p ps, hc⟩
          · rw [if_neg hc] at hm
            exact Or.inl hm
        · obtain ⟨q, hq, hbq⟩ := hrest
          exact Or.inr ⟨q, List.mem_cons_of_mem p hq, hbq⟩
      · rintro (hm | ⟨q, hq, hbq⟩)
        · left
          unfold setRowOnes
          split <;> simp [hm]
        · rcases List.mem_cons.mp hq with rfl | hq2
          · left
            unfold setRowOnes
            rw [if_pos hbq]
          · exact Or.inr ⟨q, hq2, hbq⟩

theorem enum_hit_iff (L : List ℕ) (n b t : ℕ) :
    (∃ p ∈ List.enumFrom n L, b = p.1 ∧ t < p.2) ↔
      (n ≤ b ∧ b < n + L.length ∧ t < L.getD (b - n) 0) := by
  induction L generalizing n with
  | nil => simp
  | cons l ls ih =>
      simp only [List.enumFrom, List.mem_cons, List.length_cons]
      constructor
      · rintro ⟨q, hq | hq, hbq⟩
        · rw [hq] at hbq
          obtain ⟨rfl, ht⟩ := hbq
          simp only [Nat.sub_self, List.getD_cons_zero]
          omega
        · have := (ih (n + 1)).mp ⟨q, hq, hbq⟩
          obtain ⟨h1, h2, h3⟩ := this
          refine ⟨by omega, by omega, ?_⟩
          have hidx : b - n = (b - (n + 1)) + 1 := by omega
          rw [hidx, List.getD_cons_succ]
          exact h3
      · rintro ⟨h1, h2, h3⟩
        by_cases hbn : b = n
        · subst hbn
          simp only [Nat.sub_self, List.getD_cons_zero] at h3
          exact ⟨(b, l), Or.inl rfl, rfl, h3⟩
        · have hidx : b - n = (b - (n + 1)) + 1 := by omega
          rw [hidx, List.getD_cons_succ] at h3
          obtain ⟨q, hq, hbq⟩ := (ih (n + 1)).mpr ⟨by omega, by omega, h3⟩
          exact ⟨q, Or.inr hq, hbq⟩

/-! ### Claim C7 -/

/-- C7: for a reference tensor with sizes (batch, max_time) and a length
vector with one entry per batch row, the helper returns a (batch, max_time)
mask that is false exactly at time indices below that row's length and true
otherwise. -/
theorem get_mask_from_lengths_spec (B T : ℕ) (lengths : List ℕ)
    (hlen : lengths.length = B) (b t : ℕ) (hb : b < B) (ht : t < T) :
    (get_mask_from_lengths B T lengths).batch = B ∧
    (get_mask_from_lengths B T lengths).time = T ∧
    ((get_mask_from_lengths B T lengths).val b t = true ↔ lengths.getD b 0 ≤ t) := by
  refine ⟨rfl, rfl, ?_⟩
  simp only [get_mask_from_lengths, Bool.not_eq_eq_eq_not, Bool.not_true]
  rw [← Bool.not_eq_true (maskLoop lengths.enum (fun _ _ => false) b t)]
  rw [maskLoop_true_iff]
  have henum : lengths.enum = List.enumFrom 0 lengths := rfl
  rw [henum, enum_hit_iff]
  simp only [Nat.sub_zero]
  constructor
  · intro h
    by_contra hc
    exact h (Or.inr ⟨by omega, by omega, by omega⟩)
  · rintro hge (hfalse | ⟨h1, h2, h3⟩)
    · exact absurd hfalse (by simp)
    · omega

/-- Witness for C7 at lengths `[2, 3]` and max time 3: entry (0, 2) sits past
row 0's length 2, so the returned mask is true there
(`[[false, false, true], [false, false, false]]` overall). -/
theorem get_mask_from_lengths_spec_witness :
    (get_mask_from_lengths 2 3 [2, 3]).batch = 2 ∧
    (get_mask_from_lengths 2 3 [2, 3]).time = 3 ∧
    ((get_mask_from_lengths 2 3 [2, 3]).val 0 2 = true ↔ [2, 3].getD 0 0 ≤ 2) :=
  get_mask_from_lengths_spec 2 3 [2, 3] rfl 0 2 (by norm_num) (by norm_num)

/-! ### Incremental (streaming) forward

The inner convolution's `incremental_forward` lives in the repository file
`deepvoice3_pytorch/conv.py`, which is not part of the sources under review;
it is modelled here from the specification (§4.4 and the glossary): a
convolution execution mode that consumes one new time step at a time,
maintaining a sliding buffer of prior inputs sized to the kernel's receptive
field.  In incremental mode a time step is a (batch, channel) slab, modelled
as a `Frame`. -/

/-- A single time step of a tensor: batch index and channel index to value. -/
def Frame : Type := ℕ → ℕ → ℝ

/-- The time-`t` frame of a batch tensor. -/
def frameAt (x : Tensor3) (t : ℕ) : Frame := fun b c => x.val b c t

/-- Modelled from the spec: the kernel's receptive field, the number of input
steps a dilated kernel spans, `(kernel_size - 1) * dilation + 1` — the sliding
buffer's capacity. -/
def receptiveField (kernel_size dilation : ℕ) : ℕ := (kernel_size - 1) * dilation + 1

/-- Modelled from the spec: append the newest frame to the sliding buffer and
keep only the trailing `R` frames. -/
def pushBuf (R : ℕ) (buf : List Frame) (a : Frame) : List Frame :=
  (buf ++ [a]).drop (buf.length + 1 - R)

/-- Modelled from the spec: read the frame `off` steps before the newest
buffered frame; steps before the start of the sequence read as the zero frame
(the causal zero padding). -/
def tapF (buf : List Frame) (off : ℕ) : Frame :=
  if off < buf.length then buf.getD (buf.length - 1 - off) (fun _ _ => 0)
  else fun _ _ => 0

/-- Modelled from the spec: the incremental convolution's output frame after
the newest input has been pushed: kernel tap `k` (the tap `k = K - 1` reading
the newest frame) reads `dilation * (K - 1 - k)` steps back. -/
noncomputable def convIncOut (m : Conv1dLayer) (W : ℕ → ℕ → ℕ → ℝ) (bias : ℕ → ℝ)
    (buf : List Frame) : Frame :=
  fun b c => bias c + ∑ ci in Finset.range m.in_channels,
      ∑ k in Finset.range m.kernel_size,
        W c ci k * tapF buf (m.dilation * (m.kernel_size - 1 - k)) b ci

/-- Modelled from the spec: the sliding buffer after the first `t` frames of
`x` have been consumed (empty before the first step, as after
`clear_buffer`). -/
def incBuf (m : Conv1dLayer) (x : Tensor3) : ℕ → List Frame
  | 0 => []
  | Nat.succ t => pushBuf (receptiveField m.kernel_size m.dilation) (incBuf m x t)
      (frameAt x t)

/-- `HighwayConv1d.incremental_forward` = `_forward(x, True)` (lines 130-131,
133-159) on one new frame: dropout (identity in evaluation mode), the
convolution's incremental step (spec-modelled, returning the updated buffer),
then the same gating as in batch mode, with the split taken along the last
axis — the channel axis of the incremental layout. -/
noncomputable def HighwayConv1d.incremental_forward (h : HighwayConv1d)
    (W : ℕ → ℕ → ℕ → ℝ) (bias : ℕ → ℝ) (buf : List Frame) (inp : Frame) :
    List Frame × Frame :=
  let buf2 := pushBuf (receptiveField h.conv.kernel_size h.conv.dilation) buf inp
  let y := convIncOut h.conv W bias buf2
  let n := h.conv.out_channels / 2
  if h.glu then
    (buf2, fun b c => (y b c * sigmoid (y b (n + c)) + inp b c) * Real.sqrt 0.5)
  else
    (buf2, fun b c => sigmoid (y b (n + c)) * y b c + (1 - sigmoid (y b (n + c))) * inp b c)

/-- Calling `incremental_forward` once per time step of `x`, threading the
buffer (initially empty), and concatenating the per-step outputs along the
time axis. -/
noncomputable def highwayIncRun (h : HighwayConv1d) (W : ℕ → ℕ → ℕ → ℝ)
    (bias : ℕ → ℝ) (x : Tensor3) : Tensor3 where
  batch := x.batch
  channels := h.conv.out_channels / 2
  time := x.time
  val := fun b c t =>
    (h.incremental_forward W bias (incBuf h.conv x t) (frameAt x t)).2 b c

/-! ### The buffer invariant and the per-step convolution equivalence -/

theorem incBuf_eq (m : Conv1dLayer) (x : Tensor3) (t : ℕ) :
    incBuf m x t = ((List.range t).map (frameAt x)).drop
      (t - receptiveField m.kernel_size m.dilation) := by
  induction t with
  | zero => simp [incBuf]
  | succ t ih =>
      have hlenL : ((List.range t).map (frameAt x)).length = t := by simp
      have hlenbuf : (((List.range t).map (frameAt x)).drop
          (t - receptiveField m.kernel_size m.dilation)).length
          = t - (t - receptiveField m.kernel_size m.dilation) := by
        rw [List.length_drop, hlenL]
      simp only [incBuf]
      rw [ih, pushBuf, hlenbuf,
        ← List.drop_append_of_le_length (by rw [hlenL]; omega),
        List.drop_drop, List.range_succ, List.map_append]
      simp only [List.map_cons, List.map_nil]
      congr 1
      omega

theorem tapF_incBuf (m : Conv1dLayer) (x : Tensor3) (t off : ℕ)
    (hoff : off < receptiveField m.kernel_size m.dilation) (b c : ℕ) :
    tapF (incBuf m x (t + 1)) off b c
      = if off ≤ t then x.val b c (t - off) else 0 := by
  rw [incBuf_eq]
  set R := receptiveField m.kernel_size m.dilation with hR
  set L := (List.range (t + 1)).map (frameAt x) with hL
  have hlenL : L.length = t + 1 := by rw [hL]; simp
  have hlen : (L.drop (t + 1 - R)).length = (t + 1) - (t + 1 - R) := by
    rw [List.length_drop, hlenL]
  unfold tapF
  by_cases hot : off ≤ t
  · have hofflt : off < (L.drop (t + 1 - R)).length := by rw [hlen]; omega
    rw [if_pos hofflt, if_pos hot]
    rw [List.getD_eq_getElem?_getD, List.getElem?_drop]
    have hidx : (t + 1 - R) + ((L.drop (t + 1 - R)).length - 1 - off) = t - off := by
      rw [hlen]; omega
    rw [hidx, hL, List.getElem?_map,
      List.getElem?_range (by omega : t - off < t + 1)]
    rfl
  · rw [if_neg (by rw [hlen]; omega), if_neg hot]

theorem convIncOut_eq_batch (m : Conv1dLayer)
    (hp : m.padding = (m.kernel_size - 1) * m.dilation)
    (W : ℕ → ℕ → ℕ → ℝ) (bias : ℕ → ℝ) (x : Tensor3) (t : ℕ) (ht : t < x.time)
    (b c : ℕ) :
    convIncOut m W bias (incBuf m x (t + 1)) b c = (convForward m W bias x).val b c t := by
  simp only [convIncOut, convForward]
  congr 1
  apply Finset.sum_congr rfl
  intro ci hci
  apply Finset.sum_congr rfl
  intro k hk
  have hkK : k < m.kernel_size := Finset.mem_range.mp hk
  congr 1
  have hoff : m.dilation * (m.kernel_size - 1 - k)
      < receptiveField m.kernel_size m.dilation := by
    unfold receptiveField
    have hle : m.dilation * (m.kernel_size - 1 - k) ≤ m.dilation * (m.kernel_size - 1) :=
      Nat.mul_le_mul_left _ (by omega)
    rw [Nat.mul_comm m.dilation (m.kernel_size - 1)] at hle
    omega
  rw [tapF_incBuf m x t _ hoff]
  unfold padVal
  have hsplit : m.padding = m.dilation * (m.kernel_size - 1 - k) + m.dilation * k := by
    rw [hp, Nat.mul_comm, ← Nat.mul_add]
    congr 1
    omega
  rw [hsplit]
  set A := m.dilation * (m.kernel_size - 1 - k)
  set B := m.dilation * k
  by_cases hA : A ≤ t
  · rw [if_pos hA, if_neg (by omega), if_pos (by omega)]
    congr 1
    omega
  · rw [if_neg hA, if_pos (by omega)]

/-! ### Gating-level value lemmas for both forward modes -/

theorem highwayForward_batch (h : HighwayConv1d) (W : ℕ → ℕ → ℕ → ℝ) (bias : ℕ → ℝ)
    (x : Tensor3) : (h.forward W bias x).batch = x.batch := by
  have hb : (highwayConvOut h W bias x).batch = x.batch := by
    unfold highwayConvOut F_dropout
    split <;> rfl
  unfold HighwayConv1d.forward
  split
  · simpa [Tensor3.scale, Tensor3.add, F_glu] using hb
  · simpa [Tensor3.add, Tensor3.mul, Tensor3.map, Tensor3.rsub, Tensor3.splitHalf] using hb

theorem highwayForward_time (h : HighwayConv1d) (W : ℕ → ℕ → ℕ → ℝ) (bias : ℕ → ℝ)
    (x : Tensor3) : (h.forward W bias x).time = (highwayConvOut h W bias x).time := by
  unfold HighwayConv1d.forward
  split
  · rfl
  · rfl

theorem highwayForward_channels (h : HighwayConv1d) (W : ℕ → ℕ → ℕ → ℝ) (bias : ℕ → ℝ)
    (x : Tensor3) :
    (h.forward W bias x).channels
      = if h.glu then (highwayConvOut h W bias x).channels / 2
        else (highwayConvOut h W bias x).channels
          - (highwayConvOut h W bias x).channels / 2 := by
  unfold HighwayConv1d.forward
  by_cases hg : h.glu = true
  · rw [if_pos hg, if_pos hg]
    rfl
  · rw [if_neg hg, if_neg hg]
    rfl

theorem highwayConvOut_causal_time (h : HighwayConv1d) (W : ℕ → ℕ → ℕ → ℝ)
    (bias : ℕ → ℝ) (x : Tensor3) (hc : h.causal = true)
    (hp : h.conv.padding = (h.conv.kernel_size - 1) * h.conv.dilation) :
    (highwayConvOut h W bias x).time = x.time := by
  unfold highwayConvOut
  rw [if_pos hc]
  simp only [Tensor3.timeSlice, F_dropout, convForward, hp]
  exact causal_default_trim_time x.time h.conv.kernel_size h.conv.dilation

theorem highwayForward_val_glu (h : HighwayConv1d) (W : ℕ → ℕ → ℕ → ℝ) (bias : ℕ → ℝ)
    (x : Tensor3) (hg : h.glu = true) (b c t : ℕ) :
    (h.forward W bias x).val b c t
      = ((highwayConvOut h W bias x).val b c t
          * sigmoid ((highwayConvOut h W bias x).val b
              ((highwayConvOut h W bias x).channels / 2 + c) t)
         + x.val b c t) * Real.sqrt 0.5 := by
  unfold HighwayConv1d.forward
  rw [if_pos hg]
  simp only [Tensor3.scale, Tensor3.add, F_glu]
  rw [mul_comm]

theorem highwayForward_val_nonglu (h : HighwayConv1d) (W : ℕ → ℕ → ℕ → ℝ) (bias : ℕ → ℝ)
    (x : Tensor3) (hg : h.glu = false) (b c t : ℕ) :
    (h.forward W bias x).val b c t
      = sigmoid ((highwayConvOut h W bias x).val b
            ((highwayConvOut h W bias x).channels / 2 + c) t)
          * (highwayConvOut h W bias x).val b c t
        + (1 - sigmoid ((highwayConvOut h W bias x).val b
            ((highwayConvOut h W bias x).channels / 2 + c) t)) * x.val b c t := by
  unfold HighwayConv1d.forward
  rw [if_neg (by rw [hg]; exact Bool.false_ne_true)]
  simp only [Tensor3.add, Tensor3.mul, Tensor3.map, Tensor3.rsub, Tensor3.splitHalf]

theorem highwayInc_val_glu (h : HighwayConv1d) (W : ℕ → ℕ → ℕ → ℝ) (bias : ℕ → ℝ)
    (buf : List Frame) (inp : Frame) (hg : h.glu = true) (b c : ℕ) :
    (h.incremental_forward W bias buf inp).2 b c
      = (convIncOut h.conv W bias
            (pushBuf (receptiveField h.conv.kernel_size h.conv.dilation) buf inp) b c
          * sigmoid (convIncOut h.conv W bias
              (pushBuf (receptiveField h.conv.kernel_size h.conv.dilation) buf inp) b
              (h.conv.out_channels / 2 + c))
         + inp b c) * Real.sqrt 0.5 := by
  simp only [HighwayConv1d.incremental_forward]
  rw [if_pos hg]

theorem highwayInc_val_nonglu (h : HighwayConv1d) (W : ℕ → ℕ → ℕ → ℝ) (bias : ℕ → ℝ)
    (buf : List Frame) (inp : Frame) (hg : h.glu = false) (b c : ℕ) :
    (h.incremental_forward W bias buf inp).2 b c
      = sigmoid (convIncOut h.conv W bias
            (pushBuf (receptiveField h.conv.kernel_size h.conv.dilation) buf inp) b
            (h.conv.out_channels / 2 + c))
          * convIncOut h.conv W bias
            (pushBuf (receptiveField h.conv.kernel_size h.conv.dilation) buf inp) b c
        + (1 - sigmoid (convIncOut h.conv W bias
            (pushBuf (receptiveField h.conv.kernel_size h.conv.dilation) buf inp) b
            (h.conv.out_channels / 2 + c))) * inp b c := by
  simp only [HighwayConv1d.incremental_forward]
  rw [if_neg (by rw [hg]; exact Bool.false_ne_true)]

/-! ### Claim C1 -/

/-- C1 (amended): for every causal Highway block with default padding, running
`incremental_forward` once per time step and concatenating the outputs agrees
exactly with one batch `forward` call over the whole input — sizes and every
in-range entry coincide. -/
theorem highway_incremental_eq_batch (ic oc K d : ℕ) (dropout : ℝ) (sm : Option ℝ)
    (glu : Bool) (W : ℕ → ℕ → ℕ → ℝ) (bias : ℕ → ℝ) (x : Tensor3) :
    Tensor3.eqOn
      (highwayIncRun (mkHighwayConv1d ic oc K none d true dropout sm glu) W bias x)
      ((mkHighwayConv1d ic oc K none d true dropout sm glu).forward W bias x) := by
  have hpad : (mkHighwayConv1d ic oc K none d true dropout sm glu).conv.padding
      = ((mkHighwayConv1d ic oc K none d true dropout sm glu).conv.kernel_size - 1)
        * (mkHighwayConv1d ic oc K none d true dropout sm glu).conv.dilation := rfl
  have hoc : (mkHighwayConv1d ic oc K none d true dropout sm glu).conv.out_channels
      = 2 * oc := rfl
  have hch : (highwayConvOut (mkHighwayConv1d ic oc K none d true dropout sm glu)
      W bias x).channels = 2 * oc := by
    rw [highwayConvOut_channels, hoc]
  have hval : ∀ b c t, t < x.time →
      convIncOut (mkHighwayConv1d ic oc K none d true dropout sm glu).conv W bias
        (incBuf (mkHighwayConv1d ic oc K none d true dropout sm glu).conv x (t + 1)) b c
      = (highwayConvOut (mkHighwayConv1d ic oc K none d true dropout sm glu)
          W bias x).val b c t := by
    intro b c t ht
    rw [highwayConvOut_val]
    exact convIncOut_eq_batch _ hpad W bias x t ht b c
  refine ⟨?_, ?_, ?_, fun b c t hb hc ht => ?_⟩
  · rw [highwayForward_batch]
    rfl
  · rw [highwayForward_channels, hch]
    have hlhs : (highwayIncRun (mkHighwayConv1d ic oc K none d true dropout sm glu)
        W bias x).channels = 2 * oc / 2 := rfl
    rw [hlhs]
    by_cases hg : (mkHighwayConv1d ic oc K none d true dropout sm glu).glu = true
    · rw [if_pos hg]
    · rw [if_neg hg]
      omega
  · rw [highwayForward_time,
      highwayConvOut_causal_time _ W bias x rfl hpad]
    rfl
  · have ht' : t < x.time := ht
    have hbuf : pushBuf (receptiveField
          (mkHighwayConv1d ic oc K none d true dropout sm glu).conv.kernel_size
          (mkHighwayConv1d ic oc K none d true dropout sm glu).conv.dilation)
        (incBuf (mkHighwayConv1d ic oc K none d true dropout sm glu).conv x t)
        (frameAt x t)
      = incBuf (mkHighwayConv1d ic oc K none d true dropout sm glu).conv x (t + 1) := rfl
    have hlhs : (highwayIncRun (mkHighwayConv1d ic oc K none d true dropout sm glu)
          W bias x).val b c t
        = ((mkHighwayConv1d ic oc K none d true dropout sm glu).incremental_forward
            W bias (incBuf (mkHighwayConv1d ic oc K none d true dropout sm glu).conv x t)
            (frameAt x t)).2 b c := rfl
    rw [hlhs]
    by_cases hg : (mkHighwayConv1d ic oc K none d true dropout sm glu).glu = true
    · rw [highwayInc_val_glu _ _ _ _ _ hg, highwayForward_val_glu _ _ _ _ hg,
        hbuf, hoc, hch, hval b c t ht', hval b (2 * oc / 2 + c) t ht']
      rfl
    · have hg2 : (mkHighwayConv1d ic oc K none d true dropout sm glu).glu = false :=
        Bool.eq_false_iff.mpr hg
      rw [highwayInc_val_nonglu _ _ _ _ _ hg2, highwayForward_val_nonglu _ _ _ _ hg2,
        hbuf, hoc, hch, hval b c t ht', hval b (2 * oc / 2 + c) t ht']
      rfl

/-- Witness for C1 (amended) at a concrete causal block: kernel 2, dilation 1,
zero weights, input of length 2. -/
theorem highway_incremental_eq_batch_witness :
    Tensor3.eqOn
      (highwayIncRun (mkHighwayConv1d 1 1 2 none 1 true 0 none false)
        (fun _ _ _ => 0) (fun _ => 0) (Tensor3.mk 1 1 2 (fun _ _ _ => 1)))
      ((mkHighwayConv1d 1 1 2 none 1 true 0 none false).forward
        (fun _ _ _ => 0) (fun _ => 0) (Tensor3.mk 1 1 2 (fun _ _ _ => 1))) :=
  highway_incremental_eq_batch 1 1 2 1 0 none false (fun _ _ _ => 0) (fun _ => 0)
    (Tensor3.mk 1 1 2 (fun _ _ _ => 1))

/-- Counterexample to C1 as frozen: for a non-causal Highway block (kernel 2,
default padding) on an input of time length 2, the concatenation of the two
incremental outputs has time length 2 while the batch forward output has time
length 1, so the two are not equal. -/
theorem highway_incremental_neq_batch_noncausal :
    ¬ Tensor3.eqOn
        (highwayIncRun (mkHighwayConv1d 1 1 2 none 1 false 0 none false)
          (fun _ _ _ => 0) (fun _ => 0) (Tensor3.mk 1 1 2 (fun _ _ _ => 1)))
        ((mkHighwayConv1d 1 1 2 none 1 false 0 none false).forward
          (fun _ _ _ => 0) (fun _ => 0) (Tensor3.mk 1 1 2 (fun _ _ _ => 1))) := by
  intro h
  have htime := h.2.2.1
  rw [highwayForward_time] at htime
  have hforward : (highwayConvOut (mkHighwayConv1d 1 1 2 none 1 false 0 none false)
      (fun _ _ _ => 0) (fun _ => 0) (Tensor3.mk 1 1 2 (fun _ _ _ => 1))).time = 1 := rfl
  rw [hforward] at htime
  have hinc : (highwayIncRun (mkHighwayConv1d 1 1 2 none 1 false 0 none false)
      (fun _ _ _ => 0) (fun _ => 0) (Tensor3.mk 1 1 2 (fun _ _ _ => 1))).time = 2 := rfl
  rw [hinc] at htime
  exact absurd htime (by norm_num)
